import Mathlib

/-!
Verification of the Memory & History subsystem of the FEDIS chatbot
(`chatbot.py`): key normalizer, fact store, event log, intent classifier
and conversation orchestrator, shallowly embedded as executable Lean
functions, together with theorems settling the spec's testable properties.
-/

set_option maxHeartbeats 1000000
set_option maxRecDepth 8000

/-! ## Character classes and Python string primitives (ASCII scope) -/

/-- Python's whitespace class `\s` restricted to ASCII: space, tab,
newline, carriage return, vertical tab, form feed.  This is also the set
stripped by `str.strip()` on ASCII input. -/
def pySpace (c : Char) : Bool :=
  c = ' ' || c = '\t' || c = '\n' || c = '\r' || c = '\x0b' || c = '\x0c'

/-- The character class kept by `normalize_key`'s `re.sub(r"[^\w\s-]", "", ·)`:
word characters (`\w` = alphanumeric or underscore, ASCII scope),
whitespace, and hyphen. -/
def keepChar (c : Char) : Bool :=
  c.isAlphanum || c = '_' || pySpace c || c = '-'

/-- `str.strip()` on a character list: drop leading and trailing whitespace. -/
def pyStrip (l : List Char) : List Char :=
  ((l.dropWhile pySpace).reverse.dropWhile pySpace).reverse

/-- `str.strip()` on a `String`. -/
def stripStr (s : String) : String :=
  ⟨pyStrip s.data⟩

/-- `normalize_key` from `chatbot.py`:
`re.sub(r"[^\w\s-]", "", (k or "").strip().lower())` — strip surrounding
whitespace, lowercase, then delete every character that is not
alphanumeric, underscore, whitespace or hyphen. -/
def normalize_key (k : String) : String :=
  ⟨((pyStrip k.data).map Char.toLower).filter keepChar⟩

/-! ### Lemmas about the normalizer -/

theorem char_toNat_ofNat (n : Nat) (h : n.isValidChar) :
    (Char.ofNat n).toNat = n := by
  simp only [Char.ofNat, dif_pos h, Char.ofNatAux, Char.toNat, UInt32.toNat]
  simp

theorem toLower_idem (c : Char) : c.toLower.toLower = c.toLower := by
  simp only [Char.toLower]
  split
  · rename_i h
    have hval : (Char.ofNat (c.toNat + 32)).toNat = c.toNat + 32 :=
      char_toNat_ofNat _ (Or.inl (by omega))
    rw [if_neg]
    rw [hval]
    omega
  · rfl

theorem pyStrip_sublist (l : List Char) : (pyStrip l).Sublist l := by
  unfold pyStrip
  have h1 : (l.dropWhile pySpace).Sublist l := List.dropWhile_sublist pySpace
  have h2 :=
    (List.dropWhile_sublist (l := (l.dropWhile pySpace).reverse) pySpace).reverse
  rw [List.reverse_reverse] at h2
  exact h2.trans h1

theorem map_id_of_mem {l : List Char} (f : Char → Char)
    (h : ∀ c ∈ l, f c = c) : l.map f = l := by
  induction l with
  | nil => rfl
  | cons a t ih =>
    simp only [List.map_cons, h a (List.mem_cons_self a t),
      ih (fun c hc => h c (List.mem_cons_of_mem a hc))]

/-- Key lemma behind C1/C10: a second application of the normalizer
reduces to a plain strip of the first application's result. -/
theorem normalize_twice_eq_strip (x : String) :
    normalize_key (normalize_key x) = stripStr (normalize_key x) := by
  have hmem : ∀ c ∈ (normalize_key x).data,
      keepChar c = true ∧ c.toLower = c := by
    intro c hc
    simp only [normalize_key, List.mem_filter, List.mem_map] at hc
    obtain ⟨⟨a, _, rfl⟩, hk⟩ := hc
    exact ⟨hk, toLower_idem a⟩
  have hsub : ∀ c ∈ pyStrip (normalize_key x).data,
      keepChar c = true ∧ c.toLower = c := by
    intro c hc
    exact hmem c ((pyStrip_sublist _).mem hc)
  show (⟨_⟩ : String) = ⟨_⟩
  congr 1
  rw [map_id_of_mem _ (fun c hc => (hsub c hc).2)]
  exact List.filter_eq_self.mpr (fun c hc => (hsub c hc).1)

/-! ## Fact store (`MemoryStore` over the JSON cache)

`self._cache` is a Python dict `user_id -> (normalized key -> value)`;
dicts are modelled as association lists with Python's insertion-order
update semantics (updating an existing key keeps its position, a new key
is appended). -/

/-- The in-memory fact cache: `user_id -> (normalized key -> value)`. -/
abbrev Cache := List (String × List (String × String))

/-- Python `d.get(k)`: value of the first entry with the given key, if any. -/
def dictGet : List (String × α) → String → Option α
  | [], _ => none
  | p :: t, k => if p.1 = k then some p.2 else dictGet t k

/-- Python `d[k] = v`: replace in place if the key is present, else append. -/
def dictSet (m : List (String × α)) (k : String) (v : α) :
    List (String × α) :=
  if m.any (fun p => p.1 = k) then
    m.map (fun p => if p.1 = k then (k, v) else p)
  else
    m ++ [(k, v)]

/-- `MemoryStore.remember`: normalize the key, trim the value, upsert into
the user's map (`setdefault(user_id, {})` then `user_mem[key_n] = value`). -/
def remember (c : Cache) (user_id key value : String) : Cache :=
  let key_n := normalize_key key
  let v := stripStr value
  if c.any (fun p => p.1 = user_id) then
    c.map
      (fun p => if p.1 = user_id then (user_id, dictSet p.2 key_n v) else p)
  else
    c ++ [(user_id, dictSet [] key_n v)]

/-- `MemoryStore.recall`: `self._cache.get(user_id, {}).get(key_n)`. -/
def «recall» (c : Cache) (user_id key : String) : Option String :=
  dictGet ((dictGet c user_id).getD []) (normalize_key key)

/-- `MemoryStore.list_facts`: `dict(self._cache.get(user_id, {}))`. -/
def list_facts (c : Cache) (user_id : String) : List (String × String) :=
  (dictGet c user_id).getD []

/-- Outcome of reading the persisted fact file `data/memory.json`:
the file is missing, its contents fail to parse as JSON, or it parses to
a user/facts mapping. -/
inductive FactFile where
  | missing : FactFile
  | corrupt (raw : String) : FactFile
  | parsed (data : Cache) : FactFile

/-- `_load_all` from `chatbot.py`: a missing file or a
`json.JSONDecodeError` yields `{}`; otherwise the parsed mapping. -/
def _load_all : FactFile → Cache
  | .missing => []
  | .corrupt _ => []
  | .parsed d => d

/-- Replay a sequence of `(user, key, value)` remember operations. -/
def applyRemembers (c : Cache) (ops : List (String × String × String)) :
    Cache :=
  ops.foldl (fun c t => remember c t.1 t.2.1 t.2.2) c

/-! ### Fact store lemmas -/

theorem dictGet_dictSet_self (m : List (String × α)) (k : String) (v : α) :
    dictGet (dictSet m k v) k = some v := by
  unfold dictSet
  split
  · rename_i h
    rw [List.any_eq_true] at h
    obtain ⟨p, hp, hpk⟩ := h
    simp only [decide_eq_true_eq] at hpk
    induction m with
    | nil => cases hp
    | cons q t ih =>
      by_cases hq : q.1 = k
      · simp [dictGet, hq]
      · rcases List.mem_cons.mp hp with rfl | hp'
        · exact absurd hpk hq
        · simp only [List.map_cons, if_neg hq, dictGet]
          exact ih hp'
  · rename_i h
    have habs : ∀ p ∈ m, ¬ p.1 = k := by
      intro p hp hpk
      exact h (List.any_eq_true.mpr ⟨p, hp, by simp [hpk]⟩)
    clear h
    induction m with
    | nil => simp [dictGet]
    | cons q t ih =>
      have hq := habs q (List.mem_cons_self q t)
      simp only [List.cons_append, dictGet, if_neg hq]
      exact ih (fun p hp => habs p (List.mem_cons_of_mem q hp))

theorem dictGet_map_update (c : Cache) (u kn vt : String) :
    dictGet (c.map (fun p => if p.1 = u then (u, dictSet p.2 kn vt) else p)) u
      = (dictGet c u).map (fun m => dictSet m kn vt) := by
  induction c with
  | nil => rfl
  | cons q t ih =>
    by_cases hq : q.1 = u
    · simp [dictGet, hq]
    · simp only [List.map_cons, if_neg hq, dictGet]
      exact ih

theorem dictGet_append_single (c : Cache) (u : String)
    (m : List (String × String)) (hnone : dictGet c u = none) :
    dictGet (c ++ [(u, m)]) u = some m := by
  induction c with
  | nil => simp [dictGet]
  | cons q t ih =>
    by_cases hq : q.1 = u
    · rw [dictGet, if_pos hq] at hnone
      cases hnone
    · rw [dictGet, if_neg hq] at hnone
      simp only [List.cons_append, dictGet, if_neg hq]
      exact ih hnone

theorem any_eq_false_dictGet (c : Cache) (u : String)
    (h : ¬ c.any (fun p => p.1 = u) = true) : dictGet c u = none := by
  induction c with
  | nil => rfl
  | cons q t ih =>
    have hq : ¬ q.1 = u := by
      intro hq
      exact h (List.any_eq_true.mpr ⟨q, List.mem_cons_self q t, by simp [hq]⟩)
    rw [dictGet, if_neg hq]
    exact ih (fun ht => by
      rw [List.any_eq_true] at ht
      obtain ⟨p, hp, hpk⟩ := ht
      exact h (List.any_eq_true.mpr ⟨p, List.mem_cons_of_mem q hp, hpk⟩))

theorem dictGet_remember_self (c : Cache) (u k v : String) :
    dictGet (remember c u k v) u
      = some (dictSet (list_facts c u) (normalize_key k) (stripStr v)) := by
  unfold remember
  split
  · rename_i h
    rw [dictGet_map_update]
    rw [List.any_eq_true] at h
    obtain ⟨p, hp, hpk⟩ := h
    simp only [decide_eq_true_eq] at hpk
    have hsome : (dictGet c u).isSome := by
      induction c with
      | nil => cases hp
      | cons q t ih =>
        by_cases hq : q.1 = u
        · simp [dictGet, hq]
        · rcases List.mem_cons.mp hp with rfl | hp'
          · exact absurd hpk hq
          · rw [dictGet, if_neg hq]
            exact ih hp'
    obtain ⟨m, hm⟩ := Option.isSome_iff_exists.mp hsome
    simp [hm, list_facts]
  · rename_i h
    have hnone := any_eq_false_dictGet c u h
    rw [dictGet_append_single c u _ hnone]
    simp [list_facts, hnone]

theorem dictGet_map_update_other (c : Cache) (u u' kn vt : String)
    (h : u' ≠ u) :
    dictGet (c.map (fun p => if p.1 = u then (u, dictSet p.2 kn vt) else p)) u'
      = dictGet c u' := by
  have hne : ¬ ((u : String) = u') := fun he => h he.symm
  induction c with
  | nil => rfl
  | cons q t ih =>
    by_cases hq : q.1 = u
    · simp only [List.map_cons, if_pos hq, dictGet, if_neg hne]
      rw [if_neg (hq ▸ hne)]
      exact ih
    · simp only [List.map_cons, if_neg hq, dictGet]
      by_cases hq' : q.1 = u'
      · rw [if_pos hq', if_pos hq']
      · rw [if_neg hq', if_neg hq']
        exact ih

theorem dictGet_append_other (c : Cache) (u u' : String)
    (m : List (String × String)) (h : u' ≠ u) :
    dictGet (c ++ [(u, m)]) u' = dictGet c u' := by
  have hne : ¬ ((u : String) = u') := fun he => h he.symm
  induction c with
  | nil => simp [dictGet, hne]
  | cons q t ih =>
    simp only [List.cons_append, dictGet]
    by_cases hq' : q.1 = u'
    · rw [if_pos hq', if_pos hq']
    · rw [if_neg hq', if_neg hq']
      exact ih

theorem dictGet_remember_other (c : Cache) (u u' k v : String) (h : u' ≠ u) :
    dictGet (remember c u k v) u' = dictGet c u' := by
  unfold remember
  split
  · exact dictGet_map_update_other c u u' _ _ h
  · exact dictGet_append_other c u u' _ h

theorem recall_remember_norm_eq (c : Cache) (u k k' v : String)
    (h : normalize_key k' = normalize_key k) :
    «recall» (remember c u k v) u k' = some (stripStr v) := by
  unfold «recall»
  rw [dictGet_remember_self, h]
  simp [dictGet_dictSet_self]

/-! ## Event log (`conversations.jsonl`)

A log line either fails `json.loads` (kept abstract as its raw text) or
parses to a JSON object; the fields the code reads are modelled as the
optional results of `rec.get(...)`. -/

/-- A parsed log record: the four fields `chatbot.py` reads via
`rec.get`, each possibly absent. -/
structure Rec where
  user_id : Option String
  role : Option String
  message : Option String
  ts : Option String
deriving DecidableEq, Repr

/-- One physical line of `conversations.jsonl`. -/
inductive Line where
  | junk (raw : String) : Line
  | event (r : Rec) : Line
deriving DecidableEq, Repr

/-- The dict built by `read_history` for one matching record:
`{"role": rec.get("role"), "message": rec.get("message", ""), "ts": rec.get("ts")}`. -/
structure Item where
  role : Option String
  message : String
  ts : Option String
deriving DecidableEq, Repr

/-- The filter in `read_history`:
`rec.get("user_id") == user_id and rec.get("role") in ("user", "assistant")`. -/
def matchesUser (u : String) (r : Rec) : Bool :=
  (r.user_id = some u : Bool)
    && ((r.role = some "user" : Bool) || (r.role = some "assistant" : Bool))

def toItem (r : Rec) : Item :=
  ⟨r.role, r.message.getD "", r.ts⟩

/-- The last `n` elements of a list, in order. -/
def takeLast (n : Nat) (l : List α) : List α :=
  l.drop (l.length - n)

/-- `collections.deque(maxlen := n).append`: append on the right, evicting
from the left once the deque is full. -/
def dequeAppend (n : Nat) (q : List α) (x : α) : List α :=
  takeLast n (q ++ [x])

/-- `read_history` from `chatbot.py`: scan the log forward, skip
unparseable lines, keep records matching the user with role `user` or
`assistant` in a `deque(maxlen=limit)`, and return the deque as a list. -/
def read_history (user_id : String) (limit : Nat) (log : List Line) :
    List Item :=
  log.foldl
    (fun items line =>
      match line with
      | .junk _ => items
      | .event r =>
          if matchesUser user_id r then dequeAppend limit items (toItem r)
          else items)
    []

/-- The keep-condition of `clear_history`: a line survives when it fails
to parse or its `user_id` differs from the target. -/
def keepLine (u : String) : Line → Bool
  | .junk _ => true
  | .event r => !(r.user_id = some u : Bool)

/-- Does this line carry a parseable event owned by user `u`? -/
def lineIsFor (u : String) : Line → Bool
  | .junk _ => false
  | .event r => (r.user_id = some u : Bool)

/-- `clear_history` (the `/clear` route): rebuild the log keeping every
line that fails to parse or belongs to a different user, in order. -/
def clear_history (user_id : String) (log : List Line) : List Line :=
  log.foldl
    (fun kept line =>
      match line with
      | .junk _ => kept ++ [line]
      | .event r =>
          if r.user_id ≠ some user_id then kept ++ [line] else kept)
    []

/-- The event selected by `read_history` from one line, if any. -/
def lineItem (u : String) : Line → Option Item
  | .junk _ => none
  | .event r => if matchesUser u r then some (toItem r) else none

/-! ### takeLast / deque lemmas -/

theorem takeLast_zero (l : List α) : takeLast 0 l = [] := by
  simp [takeLast]

theorem takeLast_nil (n : Nat) : takeLast n ([] : List α) = [] := by
  simp [takeLast]

theorem takeLast_append_one (n : Nat) (l : List α) (x : α) :
    takeLast n (l ++ [x])
      = if n = 0 then [] else takeLast (n - 1) l ++ [x] := by
  unfold takeLast
  rcases Nat.eq_zero_or_pos n with rfl | hn
  · simp [List.drop_eq_nil_of_le]
  · rw [if_neg (Nat.pos_iff_ne_zero.mp hn)]
    have hlen : l.length + 1 - n ≤ l.length := by omega
    rw [List.length_append, List.length_cons, List.length_nil,
      List.drop_append_of_le_length hlen]
    congr 2
    omega

theorem takeLast_takeLast_le (m n : Nat) (l : List α) (h : m ≤ n) :
    takeLast m (takeLast n l) = takeLast m l := by
  unfold takeLast
  rw [List.drop_drop, List.length_drop]
  congr 1
  omega

theorem dequeAppend_takeLast (n : Nat) (l : List α) (x : α) :
    dequeAppend n (takeLast n l) x = takeLast n (l ++ [x]) := by
  unfold dequeAppend
  rw [takeLast_append_one, takeLast_append_one]
  rcases Nat.eq_zero_or_pos n with rfl | hn
  · simp
  · rw [if_neg (Nat.pos_iff_ne_zero.mp hn), if_neg (Nat.pos_iff_ne_zero.mp hn),
      takeLast_takeLast_le _ _ _ (by omega)]

/-! ### read_history and clear_history against their specifications -/

theorem read_history_foldl (u : String) (limit : Nat) (log : List Line) :
    ∀ l : List Item,
      log.foldl
        (fun items line =>
          match line with
          | .junk _ => items
          | .event r =>
              if matchesUser u r then dequeAppend limit items (toItem r)
              else items)
        (takeLast limit l)
      = takeLast limit (l ++ log.filterMap (lineItem u)) := by
  induction log with
  | nil => intro l; simp
  | cons line t ih =>
    intro l
    cases line with
    | junk s => simpa [lineItem] using ih l
    | event r =>
      by_cases hm : matchesUser u r
      · rw [List.foldl_cons]
        simp only [hm, ite_true]
        rw [List.filterMap_cons_some
            (show lineItem u (Line.event r) = some (toItem r) by
              simp [lineItem, hm]),
          dequeAppend_takeLast, ih (l ++ [toItem r])]
        simp
      · rw [List.foldl_cons]
        simp only [hm, ite_false, Bool.false_eq_true, if_false]
        rw [List.filterMap_cons_none
            (show lineItem u (Line.event r) = none by simp [lineItem, hm])]
        exact ih l

theorem read_history_eq_takeLast (u : String) (limit : Nat) (log : List Line) :
    read_history u limit log = takeLast limit (log.filterMap (lineItem u)) := by
  have h := read_history_foldl u limit log []
  rw [takeLast_nil] at h
  simpa [read_history] using h

theorem clear_history_foldl (u : String) (log : List Line) :
    ∀ acc : List Line,
      log.foldl
        (fun kept line =>
          match line with
          | .junk _ => kept ++ [line]
          | .event r =>
              if r.user_id ≠ some u then kept ++ [line] else kept)
        acc
      = acc ++ log.filter (keepLine u) := by
  induction log with
  | nil => intro acc; simp
  | cons line t ih =>
    intro acc
    cases line with
    | junk s =>
      simp only [List.foldl_cons, List.filter_cons, keepLine]
      rw [ih (acc ++ [Line.junk s])]
      simp
    | event r =>
      by_cases hu : r.user_id = some u
      · simp only [List.foldl_cons, List.filter_cons, keepLine]
        rw [if_neg (by simp [hu]), ih acc]
        simp [hu]
      · simp only [List.foldl_cons, List.filter_cons, keepLine]
        rw [if_pos (by simp [hu]), ih (acc ++ [Line.event r])]
        simp [hu]

theorem clear_history_eq_filter (u : String) (log : List Line) :
    clear_history u log = log.filter (keepLine u) := by
  simpa [clear_history] using clear_history_foldl u log []

theorem clear_history_removes (u : String) (log : List Line) :
    ∀ l ∈ clear_history u log, lineIsFor u l = false := by
  intro l hl
  rw [clear_history_eq_filter] at hl
  have hk := List.of_mem_filter hl
  cases l with
  | junk s => rfl
  | event r =>
    simp only [keepLine, Bool.not_eq_true'] at hk
    simpa [lineIsFor] using hk

theorem clear_history_frame (u u' : String) (log : List Line) (h : u' ≠ u) :
    (clear_history u log).filter (lineIsFor u')
      = log.filter (lineIsFor u') := by
  rw [clear_history_eq_filter, List.filter_filter]
  apply List.filter_congr
  intro a _
  cases a with
  | junk s => simp [lineIsFor, keepLine]
  | event r =>
    by_cases hfor : r.user_id = some u'
    · have hne : ¬ r.user_id = some u := by
        rw [hfor]
        exact fun he => h (Option.some.inj he)
      simp [lineIsFor, keepLine, hfor, hne, h]
    · simp [lineIsFor, keepLine, hfor]

/-! ## Intent classifier: `REMEMBER_RE` and `RECALL_RE`

The two compiled patterns are embedded as regex trees and matched by a
backtracking engine in continuation-passing style that returns the list
of all matches in Python's backtracking priority order (leftmost
match = head): greedy quantifiers try longer consumption first, lazy
ones shorter first, alternatives and optional groups try the
left/present branch first.  Quantifiers occur only over
single-character classes (`\s*`, `\s+`, `(.+?)`), which the engine
enumerates by count. -/

/-- `.` in a Python pattern without `DOTALL`: any character but newline. -/
def pyDot (c : Char) : Bool :=
  !(c = '\n')

/-- Case-insensitive match of a lowercase literal against a prefix of the
input; returns the rest of the input on success. -/
def litChomp : List Char → List Char → Option (List Char)
  | [], cs => some cs
  | _ :: _, [] => none
  | p :: ps, c :: cs => if c.toLower = p then litChomp ps cs else none

/-- Length of the longest prefix of the input inside class `p`. -/
def clsRun (p : Char → Bool) : List Char → Nat
  | [] => 0
  | c :: cs => if p c then clsRun p cs + 1 else 0

/-- `n, n-1, ..., 0`: the candidate counts of a greedy `{0,}` quantifier
in priority order. -/
def descRange : Nat → List Nat
  | 0 => [0]
  | n + 1 => (n + 1) :: descRange n

/-- `n, n-1, ..., 1`: candidate counts of a greedy `{1,}` quantifier. -/
def descRangePos : Nat → List Nat
  | 0 => []
  | n + 1 => (n + 1) :: descRangePos n

/-- `1, 2, ..., n`: candidate counts of a lazy `{1,}` quantifier. -/
def ascRangePos (n : Nat) : List Nat :=
  (List.range n).map (· + 1)

/-- A regex tree covering the constructs of the two patterns. -/
inductive RE where
  | eps : RE
  | lit (pat : List Char) : RE
  | wsStar : RE
  | wsPlus : RE
  | dotPlusLazy : RE
  | opt (a : RE) : RE
  | alt (a b : RE) : RE
  | seq (a b : RE) : RE
  | eol : RE

/-- One match alternative: the unconsumed input and the captures so far. -/
structure MRes where
  rem : List Char
  caps : List (List Char)
deriving DecidableEq, Repr

/-- The backtracking matcher, in continuation-passing style: all matches
of the pattern against the input followed by the continuation, in
Python's priority order.  `eol` is `$`: it matches (without consuming)
at the end of the input or just before a trailing newline. -/
def reMatch : RE → List Char → List (List Char) →
    (List Char → List (List Char) → List MRes) → List MRes
  | .eps, cs, caps, k => k cs caps
  | .lit pat, cs, caps, k =>
      match litChomp pat cs with
      | some cs' => k cs' caps
      | none => []
  | .wsStar, cs, caps, k =>
      (descRange (clsRun pySpace cs)).flatMap (fun j => k (cs.drop j) caps)
  | .wsPlus, cs, caps, k =>
      (descRangePos (clsRun pySpace cs)).flatMap (fun j => k (cs.drop j) caps)
  | .dotPlusLazy, cs, caps, k =>
      (ascRangePos (clsRun pyDot cs)).flatMap
        (fun j => k (cs.drop j) (caps ++ [cs.take j]))
  | .opt a, cs, caps, k => reMatch a cs caps k ++ k cs caps
  | .alt a b, cs, caps, k => reMatch a cs caps k ++ reMatch b cs caps k
  | .seq a b, cs, caps, k =>
      reMatch a cs caps (fun cs' caps' => reMatch b cs' caps' k)
  | .eol, cs, caps, k => if cs = [] ∨ cs = ['\n'] then k cs caps else []

/-- The top-level continuation: report the state as a match. -/
def finishK : List Char → List (List Char) → List MRes :=
  fun cs caps => [⟨cs, caps⟩]

/-- `pattern.match(text)` for our patterns: the highest-priority match. -/
def pyMatch (re : RE) (s : String) : Option MRes :=
  (reMatch re s.data [] finishK).head?

/-- A sequence of pattern pieces, right-nested. -/
def seqList (l : List RE) : RE :=
  l.foldr RE.seq RE.eps

/-- The apostrophe character. -/
def apos : Char := Char.ofNat 39

/-- The trailing `\s*$` both patterns end with. -/
def wsEolTail : RE := RE.seq RE.wsStar RE.eol

/-- `REMEMBER_RE` up to its trailing `\s*$`:
`^\s*(?:please\s+)?(?:remember\s+(?:that\s+)?)?my\s+(.+?)\s+(?:is|=)\s+(.+?)`
(case-insensitive; `re.match` anchors at the start). -/
def remFront : RE := seqList
  [RE.wsStar,
   RE.opt (seqList [RE.lit ['p', 'l', 'e', 'a', 's', 'e'], RE.wsPlus]),
   RE.opt (seqList [RE.lit ['r', 'e', 'm', 'e', 'm', 'b', 'e', 'r'],
     RE.wsPlus,
     RE.opt (seqList [RE.lit ['t', 'h', 'a', 't'], RE.wsPlus])]),
   RE.lit ['m', 'y'], RE.wsPlus,
   RE.dotPlusLazy,
   RE.wsPlus,
   RE.alt (RE.lit ['i', 's']) (RE.lit ['=']),
   RE.wsPlus,
   RE.dotPlusLazy]

/-- `REMEMBER_RE` in full. -/
def remRE : RE := RE.seq remFront wsEolTail

/-- `RECALL_RE` up to its trailing `\s*$`:
`^\s*(?:what|when)(?:\s+is|'s)\s+my\s+(.+?)\s*\??` (case-insensitive). -/
def recFront : RE := seqList
  [RE.wsStar,
   RE.alt (RE.lit ['w', 'h', 'a', 't']) (RE.lit ['w', 'h', 'e', 'n']),
   RE.alt (seqList [RE.wsPlus, RE.lit ['i', 's']]) (RE.lit [apos, 's']),
   RE.wsPlus,
   RE.lit ['m', 'y'], RE.wsPlus,
   RE.dotPlusLazy,
   RE.wsStar,
   RE.opt (RE.lit ['?'])]

/-- `RECALL_RE` in full. -/
def recRE : RE := RE.seq recFront wsEolTail

/-- `try_parse_remember`: the two captured groups on a match. -/
def try_parse_remember (text : String) : Option (String × String) :=
  match pyMatch remRE text with
  | some res =>
      match res.caps with
      | [g1, g2] => some (⟨g1⟩, ⟨g2⟩)
      | _ => none
  | none => none

/-- `try_parse_recall`: the captured group on a match. -/
def try_parse_recall (text : String) : Option String :=
  match pyMatch recRE text with
  | some res =>
      match res.caps with
      | [g1] => some ⟨g1⟩
      | _ => none
  | none => none

/-! ### Full-anchoring: a match of either pattern consumes the input -/

theorem head?_flatMap {l : List α} {f : α → List β} {b : β}
    (h : (l.flatMap f).head? = some b) : ∃ a ∈ l, (f a).head? = some b := by
  induction l with
  | nil => cases h
  | cons x t ih =>
    rw [List.flatMap_cons] at h
    cases hx : f x with
    | nil =>
      rw [hx, List.nil_append] at h
      obtain ⟨a, ha, hh⟩ := ih h
      exact ⟨a, List.mem_cons_of_mem x ha, hh⟩
    | cons y ys =>
      rw [hx] at h
      simp only [List.cons_append, List.head?_cons] at h
      exact ⟨x, List.mem_cons_self x t, by rw [hx, List.head?_cons, h]⟩

theorem clsRun_le_length (p : Char → Bool) (cs : List Char) :
    clsRun p cs ≤ cs.length := by
  induction cs with
  | nil => simp [clsRun]
  | cons c t ih =>
    rw [clsRun]
    split
    · simpa using ih
    · simp

theorem clsRun_stops (p : Char → Bool) (cs : List Char) (c : Char)
    (h : cs[clsRun p cs]? = some c) : p c = false := by
  induction cs with
  | nil => simp [clsRun] at h
  | cons a t ih =>
    rw [clsRun] at h
    by_cases ha : p a
    · rw [if_pos ha] at h
      simp only [List.getElem?_cons_succ] at h
      exact ih h
    · rw [if_neg ha] at h
      simp only [List.getElem?_cons_zero, Option.some.injEq] at h
      rw [← h]
      exact Bool.not_eq_true _ ▸ (Bool.eq_false_iff.mpr ha)

theorem mem_descRange (j n : Nat) : j ∈ descRange n ↔ j ≤ n := by
  induction n with
  | zero => simp [descRange]
  | succ m ih =>
    rw [descRange]
    simp only [List.mem_cons, ih]
    omega

theorem descRange_head (n : Nat) : ∃ t, descRange n = n :: t := by
  cases n with
  | zero => exact ⟨[], rfl⟩
  | succ m => exact ⟨descRange m, rfl⟩

/-- The first match produced through a pattern piece is the first match
of some invocation of its continuation. -/
theorem reMatch_head_factor (re : RE) :
    ∀ (cs : List Char) (caps : List (List Char))
      (k : List Char → List (List Char) → List MRes) (r : MRes),
      (reMatch re cs caps k).head? = some r →
      ∃ cs' caps', (k cs' caps').head? = some r := by
  induction re with
  | eps =>
    intro cs caps k r h
    exact ⟨cs, caps, h⟩
  | lit pat =>
    intro cs caps k r h
    rw [reMatch] at h
    cases hlc : litChomp pat cs with
    | some cs' =>
      rw [hlc] at h
      exact ⟨cs', caps, h⟩
    | none =>
      rw [hlc] at h
      cases h
  | wsStar =>
    intro cs caps k r h
    rw [reMatch] at h
    obtain ⟨j, _, hh⟩ := head?_flatMap h
    exact ⟨cs.drop j, caps, hh⟩
  | wsPlus =>
    intro cs caps k r h
    rw [reMatch] at h
    obtain ⟨j, _, hh⟩ := head?_flatMap h
    exact ⟨cs.drop j, caps, hh⟩
  | dotPlusLazy =>
    intro cs caps k r h
    rw [reMatch] at h
    obtain ⟨j, _, hh⟩ := head?_flatMap h
    exact ⟨cs.drop j, caps ++ [cs.take j], hh⟩
  | opt a ih =>
    intro cs caps k r h
    rw [reMatch] at h
    cases hA : reMatch a cs caps k with
    | nil =>
      rw [hA, List.nil_append] at h
      exact ⟨cs, caps, h⟩
    | cons y ys =>
      rw [hA, List.cons_append, List.head?_cons] at h
      exact ih cs caps k r (by rw [hA, List.head?_cons, h])
  | alt a b iha ihb =>
    intro cs caps k r h
    rw [reMatch] at h
    cases hA : reMatch a cs caps k with
    | nil =>
      rw [hA, List.nil_append] at h
      exact ihb cs caps k r h
    | cons y ys =>
      rw [hA, List.cons_append, List.head?_cons] at h
      exact iha cs caps k r (by rw [hA, List.head?_cons, h])
  | seq a b iha ihb =>
    intro cs caps k r h
    rw [reMatch] at h
    obtain ⟨cs1, caps1, h1⟩ := iha cs caps _ r h
    exact ihb cs1 caps1 k r h1
  | eol =>
    intro cs caps k r h
    rw [reMatch] at h
    split at h
    · exact ⟨cs, caps, h⟩
    · cases h

/-- The first match of the trailing `\s*$` (run to the top-level
continuation) always stands at the very end of the input. -/
theorem tail_head_rem (cs : List Char) (caps : List (List Char)) (r : MRes)
    (h : (reMatch wsEolTail cs caps finishK).head? = some r) :
    r.rem = [] := by
  have hrun := clsRun_le_length pySpace cs
  have hunfold : reMatch wsEolTail cs caps finishK
      = (descRange (clsRun pySpace cs)).flatMap
          (fun j => reMatch RE.eol (cs.drop j) caps finishK) := rfl
  rw [hunfold] at h
  rcases Nat.lt_or_ge (clsRun pySpace cs) cs.length with hlt | hge
  · have hnil : (descRange (clsRun pySpace cs)).flatMap
        (fun j => reMatch RE.eol (cs.drop j) caps finishK) = [] := by
      rw [List.flatMap_eq_nil_iff]
      intro j hj
      have hjle : j ≤ clsRun pySpace cs := (mem_descRange _ _).mp hj
      have hcond : ¬ (cs.drop j = [] ∨ cs.drop j = ['\n']) := by
        rintro (hd | hd)
        · have := List.drop_eq_nil_iff.mp hd
          omega
        · have hlen : cs.length - j = 1 := by
            have := congrArg List.length hd
            simpa using this
          have hrun_eq : clsRun pySpace cs = j := by omega
          have hget : cs[j]? = some '\n' := by
            have h0 : (cs.drop j)[0]? = some '\n' := by rw [hd]; rfl
            rwa [List.getElem?_drop, Nat.add_zero] at h0
          have hstop := clsRun_stops pySpace cs '\n' (hrun_eq ▸ hget)
          simp [pySpace] at hstop
      rw [reMatch, if_neg hcond]
    rw [hnil] at h
    cases h
  · obtain ⟨t, ht⟩ := descRange_head (clsRun pySpace cs)
    have hdrop : cs.drop (clsRun pySpace cs) = [] :=
      List.drop_eq_nil_of_le hge
    rw [ht, List.flatMap_cons, hdrop] at h
    have hsingle : reMatch RE.eol ([] : List Char) caps finishK
        = [⟨[], caps⟩] := by
      rw [reMatch, if_pos (Or.inl rfl)]
      rfl
    rw [hsingle, List.cons_append, List.head?_cons] at h
    cases h
    rfl

/-- A successful `REMEMBER_RE.match` leaves no unconsumed input: the
pattern anchors the entire string. -/
theorem pyMatch_rem_consumes (s : String) (r : MRes)
    (h : pyMatch remRE s = some r) : r.rem = [] := by
  unfold pyMatch at h
  have h' : (reMatch remFront s.data []
      (fun cs' caps' => reMatch wsEolTail cs' caps' finishK)).head?
      = some r := h
  obtain ⟨cs', caps', hh⟩ := reMatch_head_factor remFront s.data [] _ r h'
  exact tail_head_rem cs' caps' r hh

/-- A successful `RECALL_RE.match` leaves no unconsumed input: the
pattern anchors the entire string. -/
theorem pyMatch_rec_consumes (s : String) (r : MRes)
    (h : pyMatch recRE s = some r) : r.rem = [] := by
  unfold pyMatch at h
  have h' : (reMatch recFront s.data []
      (fun cs' caps' => reMatch wsEolTail cs' caps' finishK)).head?
      = some r := h
  obtain ⟨cs', caps', hh⟩ := reMatch_head_factor recFront s.data [] _ r h'
  exact tail_head_rem cs' caps' r hh

/-! ## Conversation orchestrator (`/chat` route)

The pure content of the `chat` handler: cookies and HTTP are external;
the answer generator `llm_chat` is a capability `String → Option String`
(`none` = both providers unavailable); `log_event`'s timestamp is passed
in.  The handler returns the reply, the updated fact cache and the log
records appended to `conversations.jsonl`, in order. -/

structure ChatOut where
  reply : String
  cache : Cache
  events : List Rec
deriving Repr

/-- The `chat` handler from `chatbot.py`, for one request. -/
def chat (c : Cache) (user_id msg : String) (gen : String → Option String)
    (ts : String) : ChatOut :=
  let user_msg := stripStr msg
  if user_msg = "" then
    ⟨"Tell me something and I’ll try to help.", c, []⟩
  else
    let userEv : Rec := ⟨some user_id, some "user", some user_msg, some ts⟩
    match try_parse_remember user_msg with
    | some (k, v) =>
        let bot := "I’ll remember your " ++ stripStr k ++ " is "
          ++ stripStr v ++ "."
        ⟨bot, remember c user_id k v,
          [userEv, ⟨some user_id, some "assistant", some bot, some ts⟩]⟩
    | none =>
        match try_parse_recall user_msg with
        | some rk =>
            let bot :=
              match «recall» c user_id rk with
              | some v =>
                  if v ≠ "" then
                    "You told me your " ++ stripStr rk ++ " is " ++ v ++ "."
                  else
                    "I don’t have your " ++ stripStr rk
                      ++ " yet. You can say: “remember my " ++ stripStr rk
                      ++ " is …”."
              | none =>
                  "I don’t have your " ++ stripStr rk
                    ++ " yet. You can say: “remember my " ++ stripStr rk
                    ++ " is …”."
            ⟨bot, c,
              [userEv, ⟨some user_id, some "assistant", some bot, some ts⟩]⟩
        | none =>
            let facts := list_facts c user_id
            let context :=
              if facts ≠ [] then
                "(User facts: "
                  ++ String.intercalate "; "
                      (facts.map (fun p => p.1 ++ "=" ++ p.2))
                  ++ ")\n"
              else ""
            let prompt := context ++ "User said: " ++ user_msg
              ++ "\nRespond helpfully and briefly."
            let bot := (gen prompt).getD ("Got it. " ++ user_msg)
            ⟨bot, c,
              [userEv, ⟨some user_id, some "assistant", some bot, some ts⟩]⟩

/-! ### Stored-key invariant machinery (C10) -/

theorem mem_dictSet {m : List (String × α)} {k : String} {v : α}
    {p : String × α} (h : p ∈ dictSet m k v) : p ∈ m ∨ p = (k, v) := by
  unfold dictSet at h
  split at h
  · obtain ⟨q, hq, hfq⟩ := List.mem_map.mp h
    by_cases hqk : q.1 = k
    · right
      rw [if_pos hqk] at hfq
      exact hfq.symm
    · left
      rw [if_neg hqk] at hfq
      exact hfq ▸ hq
  · rcases List.mem_append.mp h with h' | h'
    · left
      exact h'
    · right
      simpa using h'

theorem list_facts_remember_self (c : Cache) (u k v : String) :
    list_facts (remember c u k v) u
      = dictSet (list_facts c u) (normalize_key k) (stripStr v) := by
  unfold list_facts
  rw [dictGet_remember_self]
  rfl

theorem list_facts_remember_other (c : Cache) (u u' k v : String)
    (h : u' ≠ u) :
    list_facts (remember c u k v) u' = list_facts c u' := by
  unfold list_facts
  rw [dictGet_remember_other c u u' k v h]

/-- Every stored key is in the image of the normalizer, hence fixed by a
further normalize up to strip. -/
def goodKeys (c : Cache) : Prop :=
  ∀ u : String, ∀ p ∈ list_facts c u, normalize_key p.1 = stripStr p.1

theorem goodKeys_nil : goodKeys [] := by
  intro u p hp
  simp [list_facts, dictGet] at hp

theorem goodKeys_remember {c : Cache} (h : goodKeys c) (u k v : String) :
    goodKeys (remember c u k v) := by
  intro u' p hp
  by_cases hu : u' = u
  · subst hu
    rw [list_facts_remember_self] at hp
    rcases mem_dictSet hp with hm | rfl
    · exact h u' p hm
    · exact normalize_twice_eq_strip k
  · rw [list_facts_remember_other c u u' k v hu] at hp
    exact h u' p hp

theorem goodKeys_applyRemembers (ops : List (String × String × String)) :
    ∀ c : Cache, goodKeys c → goodKeys (applyRemembers c ops) := by
  induction ops with
  | nil =>
    intro c h
    exact h
  | cons t rest ih =>
    intro c h
    exact ih _ (goodKeys_remember h t.1 t.2.1 t.2.2)

/-! ## Demonstration data for the claims -/

/-- 150 parseable events for one user, in file order. -/
def demoLog : List Line :=
  (List.range 150).map
    (fun i => Line.event
      ⟨some "u", some "user", some (Nat.repr i), some (Nat.repr i)⟩)

/-- A small mixed log: two users and an unparseable line. -/
def demoClearLog : List Line :=
  [Line.event ⟨some "u1", some "user", some "a", some "1"⟩,
   Line.junk "not json",
   Line.event ⟨some "u2", some "user", some "b", some "2"⟩,
   Line.event ⟨some "u1", some "assistant", some "c", some "3"⟩,
   Line.event ⟨some "u2", some "assistant", some "d", some "4"⟩]

/-! ## The claims -/

/-- C1 (counterexample): the key normalizer is not idempotent on the
printable-ASCII input `".a ."`: one pass yields `"a "` (the removal of
the dots exposes a trailing space that the initial strip did not see),
and a second pass strips that space. -/
theorem normalize_key_not_idempotent :
    normalize_key (normalize_key ".a .") ≠ normalize_key ".a ." := by
  decide

/-- C1 (amended): a second application of `normalize_key` coincides with
`str.strip()` of the first application's result, so the normalizer is
idempotent exactly on inputs whose normalized form carries no leading or
trailing whitespace. -/
theorem normalize_key_twice (x : String) :
    normalize_key (normalize_key x) = stripStr (normalize_key x) :=
  normalize_twice_eq_strip x

/-- C2 (counterexample): on the general-chat branch with the generator
unavailable, the reply echoes the *stripped* message, not the original
one: for the raw message `" hi "` the reply is `"Got it. hi"`. -/
theorem chat_fallback_not_raw_echo :
    stripStr " hi " ≠ ""
    ∧ try_parse_remember (stripStr " hi ") = none
    ∧ try_parse_recall (stripStr " hi ") = none
    ∧ (chat [] "u" " hi " (fun _ => none) "t").reply = "Got it. hi"
    ∧ (chat [] "u" " hi " (fun _ => none) "t").reply
        ≠ "Got it. " ++ " hi " := by
  exact ⟨by decide, by decide, by decide, by decide, by decide⟩

/-- C2 (amended): for every message that reaches the general-chat branch
(strip-nonempty, neither grammar matches), when the generator reports
unavailable the reply is exactly `"Got it. "` followed by the stripped
message — equal to the original message whenever it has no surrounding
whitespace. -/
theorem chat_fallback_reply (c : Cache) (u msg : String)
    (gen : String → Option String) (ts : String)
    (h1 : stripStr msg ≠ "")
    (h2 : try_parse_remember (stripStr msg) = none)
    (h3 : try_parse_recall (stripStr msg) = none)
    (h4 : ∀ p, gen p = none) :
    (chat c u msg gen ts).reply = "Got it. " ++ stripStr msg := by
  simp [chat, h1, h2, h3, h4]

theorem chat_fallback_reply_witness :
    stripStr " hi " ≠ ""
    ∧ try_parse_remember (stripStr " hi ") = none
    ∧ try_parse_recall (stripStr " hi ") = none
    ∧ (chat [] "u" " hi " (fun _ => none) "t").reply
        = "Got it. " ++ stripStr " hi " :=
  ⟨by decide, by decide, by decide,
    chat_fallback_reply [] "u" " hi " (fun _ => none) "t"
      (by decide) (by decide) (by decide) (fun _ => rfl)⟩

/-- C3: `read_history` returns exactly the most recent `limit` events of
the given user with role `user` or `assistant`, in file order, skipping
unparseable lines; in particular 150 appended events for one user yield
the 100 most recent ones. -/
theorem read_window_spec :
    (∀ (u : String) (limit : Nat) (log : List Line),
      read_history u limit log
        = takeLast limit (log.filterMap (lineItem u)))
    ∧ read_history "u" 100 demoLog
        = ((List.range 150).drop 50).map
            (fun i => ⟨some "user", Nat.repr i, some (Nat.repr i)⟩) :=
  ⟨read_history_eq_takeLast, by decide⟩

/-- C4: `clear_history` keeps exactly the lines that fail to parse or
belong to a different user, order and content unchanged; afterwards no
parseable event of the target user remains and every other user's
events are present unchanged. -/
theorem compaction_spec :
    (∀ (u : String) (log : List Line),
      clear_history u log = log.filter (keepLine u))
    ∧ (∀ (u : String) (log : List Line),
        ∀ l ∈ clear_history u log, lineIsFor u l = false)
    ∧ (∀ (u u' : String) (log : List Line), u' ≠ u →
        (clear_history u log).filter (lineIsFor u')
          = log.filter (lineIsFor u')) :=
  ⟨clear_history_eq_filter, clear_history_removes,
    fun u u' log h => clear_history_frame u u' log h⟩

theorem compaction_spec_witness :
    (Line.junk "not json" ∈ clear_history "u1" demoClearLog
      ∧ lineIsFor "u1" (Line.junk "not json") = false)
    ∧ ("u2" ≠ "u1"
      ∧ (clear_history "u1" demoClearLog).filter (lineIsFor "u2")
          = demoClearLog.filter (lineIsFor "u2")) :=
  ⟨⟨by decide,
    compaction_spec.2.1 "u1" demoClearLog (Line.junk "not json") (by decide)⟩,
   ⟨by decide, compaction_spec.2.2 "u1" "u2" demoClearLog (by decide)⟩⟩

/-- C5: the remember grammar is consulted before the recall grammar,
`"my password is my secret"` parses as Remember with key `"password"`
and value `"my secret"` and not as Recall, and both grammars anchor the
whole input: any successful match consumes the entire string. -/
theorem classifier_spec :
    try_parse_remember "my password is my secret"
        = some ("password", "my secret")
    ∧ try_parse_recall "my password is my secret" = none
    ∧ (∀ (c : Cache) (u : String) (gen : String → Option String)
        (ts msg k v : String),
        stripStr msg ≠ "" →
        try_parse_remember (stripStr msg) = some (k, v) →
        (chat c u msg gen ts).reply
          = "I’ll remember your " ++ stripStr k ++ " is "
              ++ stripStr v ++ ".")
    ∧ (∀ (s : String) (r : MRes), pyMatch remRE s = some r → r.rem = [])
    ∧ (∀ (s : String) (r : MRes), pyMatch recRE s = some r → r.rem = []) := by
  refine ⟨by decide, by decide, ?_, pyMatch_rem_consumes, pyMatch_rec_consumes⟩
  intro c u gen ts msg k v hne hp
  simp [chat, hne, hp]

theorem classifier_spec_witness :
    (stripStr "my password is my secret" ≠ ""
      ∧ try_parse_remember (stripStr "my password is my secret")
          = some ("password", "my secret")
      ∧ (chat [] "u" "my password is my secret" (fun _ => none) "t").reply
          = "I’ll remember your password is my secret.")
    ∧ (pyMatch remRE "my a is b" = some ⟨[], [['a'], ['b']]⟩
      ∧ (⟨[], [['a'], ['b']]⟩ : MRes).rem = [])
    ∧ (pyMatch recRE "what is my a" = some ⟨[], [['a']]⟩
      ∧ (⟨[], [['a']]⟩ : MRes).rem = []) :=
  ⟨⟨by decide, by decide,
    classifier_spec.2.2.1 [] "u" (fun _ => none) "t"
      "my password is my secret" "password" "my secret"
      (by decide) (by decide)⟩,
   ⟨by decide, classifier_spec.2.2.2.1 "my a is b" ⟨[], [['a'], ['b']]⟩ (by decide)⟩,
   ⟨by decide, classifier_spec.2.2.2.2 "what is my a" ⟨[], [['a']]⟩ (by decide)⟩⟩

/-- C6: remember / recall round-trip with key normalization: storing
under `"Age"` and reading under `"age"` returns the value, and in
general any two raw keys with the same normal form hit the same fact. -/
theorem roundtrip_spec :
    (∀ (c : Cache) (u : String),
      «recall» (remember c u "Age" "30") u "age" = some "30")
    ∧ (∀ (c : Cache) (u k k' v : String),
        normalize_key k' = normalize_key k →
        «recall» (remember c u k v) u k' = some (stripStr v)) := by
  constructor
  · intro c u
    exact recall_remember_norm_eq c u "Age" "age" "30" (by decide)
  · intro c u k k' v h
    exact recall_remember_norm_eq c u k k' v h

theorem roundtrip_spec_witness :
    normalize_key "age" = normalize_key "Age"
    ∧ «recall» (remember [] "u" "Age" "30") "u" "age" = some (stripStr "30") :=
  ⟨by decide, roundtrip_spec.2 [] "u" "Age" "age" "30" (by decide)⟩

/-- C7: last write wins: two sequential remembers of the same raw key
leave the second value, for every starting store, user and key. -/
theorem last_write_wins (c : Cache) (u key : String) :
    «recall» (remember (remember c u key "A") u key "B") u key
      = some "B" :=
  recall_remember_norm_eq _ u key key "B" rfl

/-- C8: per-user isolation: a remember for `u1` leaves every other
user's fact map and recall results untouched. -/
theorem isolation_spec (c : Cache) (u1 u2 k k' v : String)
    (h : u1 ≠ u2) :
    list_facts (remember c u1 k v) u2 = list_facts c u2
    ∧ «recall» (remember c u1 k v) u2 k' = «recall» c u2 k' := by
  have hne : u2 ≠ u1 := fun he => h he.symm
  constructor
  · exact list_facts_remember_other c u1 u2 k v hne
  · unfold «recall»
    rw [dictGet_remember_other c u1 u2 k v hne]

theorem isolation_spec_witness :
    "u1" ≠ "u2"
    ∧ (list_facts (remember [] "u1" "x" "1") "u2" = list_facts [] "u2"
      ∧ «recall» (remember [] "u1" "x" "1") "u2" "x"
          = «recall» [] "u2" "x") :=
  ⟨by decide, isolation_spec [] "u1" "u2" "x" "x" "1" (by decide)⟩

/-- C9: corrupt or missing persisted data is never fatal: `_load_all`
yields the empty store on a missing or unparseable fact file, and
`recall` returns the explicit absent signal (never fails) for unknown
users and unknown keys. -/
theorem resilience_spec :
    _load_all FactFile.missing = []
    ∧ (∀ s, _load_all (FactFile.corrupt s) = [])
    ∧ (∀ u k, «recall» (_load_all FactFile.missing) u k = none)
    ∧ (∀ s u k, «recall» (_load_all (FactFile.corrupt s)) u k = none)
    ∧ (∀ (c : Cache) (u k : String),
        dictGet c u = none → «recall» c u k = none)
    ∧ (∀ (c : Cache) (u k : String) (m : List (String × String)),
        dictGet c u = some m → dictGet m (normalize_key k) = none →
        «recall» c u k = none) := by
  refine ⟨rfl, fun s => rfl, fun u k => rfl, fun s u k => rfl, ?_, ?_⟩
  · intro c u k h
    unfold «recall»
    rw [h]
    rfl
  · intro c u k m h1 h2
    unfold «recall»
    rw [h1]
    exact h2

theorem resilience_spec_witness :
    (dictGet ([("a", [("b", "c")])] : Cache) "z" = none
      ∧ «recall» [("a", [("b", "c")])] "z" "b" = none)
    ∧ (dictGet ([("a", [("b", "c")])] : Cache) "a" = some [("b", "c")]
      ∧ dictGet [("b", "c")] (normalize_key "q") = none
      ∧ «recall» [("a", [("b", "c")])] "a" "q" = none) :=
  ⟨⟨by decide,
    resilience_spec.2.2.2.2.1 [("a", [("b", "c")])] "z" "b" (by decide)⟩,
   ⟨by decide, by decide,
    resilience_spec.2.2.2.2.2 [("a", [("b", "c")])] "a" "q" [("b", "c")]
      (by decide) (by decide)⟩⟩

/-- C10 (counterexample): stored keys need not be fixed points of the
normalizer: one remember of the raw key `".a ."` from the empty store
stores the key `"a "`, and `normalize_key "a " = "a" ≠ "a "`. -/
theorem stored_keys_not_fixed_points :
    list_facts (applyRemembers [] [("u", ".a .", "v")]) "u" = [("a ", "v")]
    ∧ normalize_key "a " ≠ "a " :=
  ⟨by decide, by decide⟩

/-- C10 (amended): after any sequence of remembers from the empty store,
every stored key is in the image of the normalizer: a further
normalize changes it at most by stripping the whitespace at its ends
(`normalize_key k = stripStr k` for every stored key `k`). -/
theorem stored_keys_normalizer_image :
    ∀ (ops : List (String × String × String)) (u : String),
      (list_facts (applyRemembers [] ops) u).all
        (fun p => normalize_key p.1 = stripStr p.1) = true := by
  intro ops u
  rw [List.all_eq_true]
  intro p hp
  exact decide_eq_true (goodKeys_applyRemembers ops [] goodKeys_nil u p hp)
